import Mathlib

/-!
Verification development for the Orio annotated-C fixture corpus and the
annotation-driven autotuning core it specifies.

The repository ships three annotated C fixtures
(`testsuite/spmv.c`, `testsuite/regression/cuda/sources/vecAXPBYPCZ.c`,
`testsuite/sandbox/cuda/matVec.c`).  The baseline loops of those fixtures are
embedded here directly from the C text.  The autotuning tool itself (annotation
parser, parameter-space expander, code-variant generator, search driver, source
rewriter) is not part of the repository, so those components are modelled from
the specification; each such definition carries a doc comment starting
"Modelled from the spec:".

C `double` values are embedded as exact rationals (ℚ).  The specification makes
operand-order preservation an explicit invariant (no reassociation of
floating-point sums), so every embedded loop accumulates in the exact operand
order of the C text; over ℚ this order-faithful embedding turns the spec's
"numerically equivalent within floating-point rounding" into exact equality.
Arrays are embedded as total functions from indices to values, and a C store
`y[i] = e` becomes `Function.update y i e`.
-/

namespace OrioSpec

/-- A concrete value of a performance parameter: the annotation language's
domains hold numbers (ranges) and strings (flag enumerations). -/
inductive PValue where
  | num (n : Nat)
  | str (s : String)
deriving DecidableEq, Repr, Inhabited

/-- Modelled from the spec: the annotation language's `range(start, stop, step)`
domain generator — values ascending from `start` by `step`, excluding `stop`
(`range(1,3)` abbreviates step 1). -/
def rangeDom (start stop step : Nat) : List Nat :=
  (List.range ((stop - start + step - 1) / step)).map (fun k => start + k * step)

/-- Modelled from the spec: `map(join, product(l1, l2))` — the cartesian
product of two string lists in nested left-to-right order, each pair joined
into a single flag string. -/
def joinProduct (l1 l2 : List String) : List String :=
  l1.flatMap (fun s1 => l2.map (fun s2 => String.intercalate " " [s1, s2]))

/-- Modelled from the spec: the Parameter Space Expander — evaluates the
declared `performance_params` (declaration order, each domain in declared
order) into the full ordered cartesian product of ParameterAssignments, with
product expansion in nested left-to-right order (the first declared parameter
varies slowest). -/
def expand {α : Type} : List (String × List α) → List (List (String × α))
  | [] => [[]]
  | (nm, dom) :: ps => dom.flatMap (fun v => (expand ps).map (fun asn => (nm, v) :: asn))

/-- The product of the declared domain sizes of a parameter list. -/
def sizesProd {α : Type} (ps : List (String × List α)) : Nat :=
  (ps.map (fun p => p.2.length)).prod

/-- The ParameterAssignment that position `k` of the expanded space must hold:
mixed-radix decoding of `k` with the later-declared parameters as the
fast-varying digits. -/
def assignmentAt {α : Type} [Inhabited α] : List (String × List α) → Nat → List (String × α)
  | [], _ => []
  | (nm, dom) :: ps, k =>
    (nm, dom.getD (k / sizesProd ps) default) :: assignmentAt ps (k % sizesProd ps)

/-- The `performance_params` block of the `MatMult_SeqSG` PerfTuning fixture
(`testsuite/sandbox/cuda/matVec.c`): `TC = range(32,65,32)`,
`BC = range(14,29,14)`, `UIF = range(1,3)`, `PL = [16,48]`,
`CFLAGS = map(join, product(['', '-use_fast_math'], ['', '-Xptxas -dlcm=cg']))`. -/
def matVecPerfParams : List (String × List PValue) :=
  [("TC", (rangeDom 32 65 32).map PValue.num),
   ("BC", (rangeDom 14 29 14).map PValue.num),
   ("UIF", (rangeDom 1 3 1).map PValue.num),
   ("PL", [PValue.num 16, PValue.num 48]),
   ("CFLAGS", (joinProduct ["", "-use_fast_math"] ["", "-Xptxas -dlcm=cg"]).map PValue.str)]

/-- Status of one empirical evaluation. -/
inductive EStatus where
  | success
  | buildFailure
  | runtimeFailure
deriving DecidableEq, Repr

/-- Modelled from the spec: an EvaluationResult — the variant's originating
ParameterAssignment, its measured scalar cost (lower is better), and its
status. -/
structure EvaluationResult (α : Type) where
  variant : α
  cost : ℚ
  status : EStatus
deriving DecidableEq, Repr

/-- Modelled from the spec: the exhaustive Search Driver evaluates every
ParameterAssignment of the expanded space in its deterministic order and
records one EvaluationResult per assignment. -/
def exhaustiveRun {α : Type} (space : List α) (eval : α → ℚ × EStatus) :
    List (EvaluationResult α) :=
  space.map (fun a => { variant := a, cost := (eval a).1, status := (eval a).2 })

/-- Modelled from the spec: selection — the Success-status EvaluationResult of
minimal cost, ties broken in favour of the earliest-evaluated result; `none`
when no evaluation succeeded. -/
def selectBest {α : Type} : List (EvaluationResult α) → Option (EvaluationResult α)
  | [] => none
  | r :: rest =>
    if r.status = EStatus.success then
      match selectBest rest with
      | none => some r
      | some b => if b.cost < r.cost then some b else some r
    else selectBest rest

/-- Space-level fatal failures of a tuning run. -/
inductive FatalError where
  | malformedAnnotation
  | emptyDomain
  | noViableVariant
deriving DecidableEq, Repr

/-- Modelled from the spec: the Source Rewriter replaces the annotated span of
the source text with the winning variant's generated code. -/
def rewriteSource (source : String) (spanStart spanLen : Nat) (variantText : String) : String :=
  source.take spanStart ++ variantText ++ source.drop (spanStart + spanLen)

/-- Modelled from the spec: one whole tuning run over one PerfTuning block —
parse (`none` = malformed), expand, evaluate the space exhaustively, select,
rewrite.  Returns the (possibly rewritten) source text together with either the
fatal error or the winning EvaluationResult. -/
def tune (source : String) (spanStart spanLen : Nat)
    (parsed : Option (List (String × List PValue)))
    (eval : List (String × PValue) → ℚ × EStatus)
    (gen : List (String × PValue) → String) :
    String × (FatalError ⊕ EvaluationResult (List (String × PValue))) :=
  match parsed with
  | none => (source, Sum.inl FatalError.malformedAnnotation)
  | some ps =>
    if ps.any (fun p => p.2.isEmpty) then (source, Sum.inl FatalError.emptyDomain)
    else
      match selectBest (exhaustiveRun (expand ps) eval) with
      | none => (source, Sum.inl FatalError.noViableVariant)
      | some b => (rewriteSource source spanStart spanLen (gen b.variant), Sum.inr b)

/-- The baseline loop of `VecAXPBYPCZ`
(`testsuite/regression/cuda/sources/vecAXPBYPCZ.c`):
`for (i=0; i<=n-1; i++) y[i]=a*x[i]+b*y[i]+c*z[i];` with `int n`, so a
non-positive `n` runs zero iterations (`Int.toNat` of a non-positive is 0). -/
def VecAXPBYPCZ (n : Int) (a : ℚ) (x : Nat → ℚ) (b : ℚ) (y : Nat → ℚ) (c : ℚ)
    (z : Nat → ℚ) : Nat → ℚ :=
  (List.range n.toNat).foldl
    (fun ys i => Function.update ys i (a * x i + b * ys i + c * z i)) y

/-- The baseline loop of `VecAXPBYPCZ` with the whole triple `(x, y, z)` as
explicit state: the loop body stores only into `y` (there is no assignment to
`x` or `z` anywhere in the C function). -/
def vecAXPBYPCZState (n : Int) (a b c : ℚ)
    (s : (Nat → ℚ) × (Nat → ℚ) × (Nat → ℚ)) : (Nat → ℚ) × (Nat → ℚ) × (Nat → ℚ) :=
  (List.range n.toNat).foldl
    (fun st i =>
      (st.1, Function.update st.2.1 i (a * st.1 i + b * st.2.1 i + c * st.2.2 i), st.2.2))
    s

/-- Modelled from the spec: the CUDA Code Variant Generator partitions the
baseline loop's iteration space across `blockCount` blocks of `threadCount`
threads; the global thread `g` handles exactly the baseline iterations `i` with
`i % (threadCount*blockCount) = g`, in increasing order, executing the exact
baseline statement (same operands, same operation order). -/
def cudaThreadIndices (gridSize g n : Nat) : List Nat :=
  (List.range n).filter (fun i => i % gridSize == g)

/-- Modelled from the spec: the generated CUDA variant of the `VecAXPBYPCZ`
baseline — every global thread of the `threadCount × blockCount` grid applies
the baseline statement to its own slice of the iteration space. -/
def cudaVecAXPBYPCZ (threadCount blockCount : Nat) (n : Int) (a : ℚ) (x : Nat → ℚ)
    (b : ℚ) (y : Nat → ℚ) (c : ℚ) (z : Nat → ℚ) : Nat → ℚ :=
  (List.range (threadCount * blockCount)).foldl
    (fun ys g =>
      (cudaThreadIndices (threadCount * blockCount) g n.toNat).foldl
        (fun ys2 i => Function.update ys2 i (a * x i + b * ys2 i + c * z i)) ys)
    y

/-- Modelled from the spec: the generic (zero-transformation) variant emits the
baseline loop unchanged, so executing it is executing the baseline. -/
def genericVecVariant (n : Int) (a : ℚ) (x : Nat → ℚ) (b : ℚ) (y : Nat → ℚ) (c : ℚ)
    (z : Nat → ℚ) : Nat → ℚ :=
  VecAXPBYPCZ n a x b y c z

/-- One accumulation step of the SpMV inner loop (`testsuite/spmv.c`):
`y[i] = y[i] + aa[j] * x[aj[j]];`. -/
def spmvRowStep (aa x : Nat → ℚ) (aj : Nat → Nat) (i : Nat) (ys : Nat → ℚ)
    (j : Nat) : Nat → ℚ :=
  Function.update ys i (ys i + aa j * x (aj j))

/-- The value the SpMV computation gives row `i`: starting from the annotation's
`init_val` 0, accumulate `aa[j]*x[aj[j]]` for `j` from `ai[i]` to `ai[i+1]-1`
in increasing order. -/
def spmvRowVal (ai aj : Nat → Nat) (aa x : Nat → ℚ) (i : Nat) : ℚ :=
  (List.range' (ai i) (ai (i + 1) - ai i)).foldl
    (fun acc j => acc + aa j * x (aj j)) 0

/-- The baseline SpMV loop nest of `testsuite/spmv.c`:
`for (i=0; i<=m-1; i++) { y[i] = 0.0; for (j=ai[i]; j<=ai[i+1]-1; j++)
y[i] = y[i] + aa[j] * x[aj[j]]; }`. -/
def spmvBaseline (m : Nat) (ai aj : Nat → Nat) (aa x : Nat → ℚ) (y : Nat → ℚ) :
    Nat → ℚ :=
  (List.range m).foldl
    (fun ys i =>
      (List.range' (ai i) (ai (i + 1) - ai i)).foldl (spmvRowStep aa x aj i)
        (Function.update ys i 0))
    y

/-- Modelled from the spec: the index sequence an `uf`-fold unrolled loop over
`[s, s+len)` visits — ⌊len/uf⌋ unrolled groups of `uf` consecutive indices,
followed by the residual (clean-up) loop covering the remaining `len mod uf`
indices. -/
def unrollIndices (uf s len : Nat) : List Nat :=
  ((List.range (len / uf)).flatMap
      (fun blk => (List.range uf).map (fun r => s + blk * uf + r)))
    ++ List.range' (s + uf * (len / uf)) (len - uf * (len / uf))

/-- Modelled from the spec: the SpMV Code Variant Generator's output for
`out_unroll_factor = ouf`, `in_unroll_factor = iuf` — the outer row loop
unrolled `ouf`-fold with a residual loop over the trailing rows, each visited
row set to `init_val` 0 and accumulated over its `iuf`-fold unrolled (plus
residual) inner range, in the baseline's exact operand order. -/
def spmvUnrolled (ouf iuf m : Nat) (ai aj : Nat → Nat) (aa x : Nat → ℚ)
    (y : Nat → ℚ) : Nat → ℚ :=
  (unrollIndices ouf 0 m).foldl
    (fun ys i =>
      (unrollIndices iuf (ai i) (ai (i + 1) - ai i)).foldl (spmvRowStep aa x aj i)
        (Function.update ys i 0))
    y

/-- One step of the `MatMult_SeqSG` inner diagonal loop
(`testsuite/sandbox/cuda/matVec.c`): `col = i+offsets[j];
if(col>=0&&col<nrows) y[i] += A[i+j*nrows] * x[col];` — `col` is a C `int`,
so it is embedded as `Int` and `x` is indexed by `Int`. -/
def matMultStep (nrows : Nat) (offsets : Nat → Int) (A : Nat → ℚ) (x : Int → ℚ)
    (i : Nat) (ys : Nat → ℚ) (j : Nat) : Nat → ℚ :=
  let col : Int := (i : Int) + offsets j
  if 0 ≤ col ∧ col < (nrows : Int) then
    Function.update ys i (ys i + A (i + j * nrows) * x col)
  else ys

/-- The baseline loop nest of `MatMult_SeqSG` (`testsuite/sandbox/cuda/matVec.c`):
`for(i=0; i<=nrows-1; i++) for(j=0; j<=ndiags-1; j++) { col = i+offsets[j];
if(col>=0&&col<nrows) y[i] += A[i+j*nrows] * x[col]; }`. -/
def matMultSeqSG (nrows ndiags : Nat) (offsets : Nat → Int) (A : Nat → ℚ)
    (x : Int → ℚ) (y : Nat → ℚ) : Nat → ℚ :=
  (List.range nrows).foldl
    (fun ys i => (List.range ndiags).foldl (matMultStep nrows offsets A x i) ys) y

/-- The indices at which the `MatMult_SeqSG` baseline reads the input vector
`x`: one read of `x[col]`, `col = i+offsets[j]`, for each guard-passing pair
`(i, j)` of the loop nest. -/
def matMultXReads (nrows ndiags : Nat) (offsets : Nat → Int) : List Int :=
  (List.range nrows).flatMap (fun i =>
    (List.range ndiags).filterMap (fun j =>
      let col : Int := (i : Int) + offsets j
      if 0 ≤ col ∧ col < (nrows : Int) then some col else none))

/-- The `offsets` array of `MatMult_SeqSG` as built by the fixture's code for
the declared input_params `m=n=p=2, Nos=7, dof=1`:
`[-m*n*dof, -m*dof, -dof, 0, dof, m*dof, m*n*dof] = [-4,-2,-1,0,1,2,4]`. -/
def fixtureOffsets : Nat → Int
  | 0 => -4
  | 1 => -2
  | 2 => -1
  | 3 => 0
  | 4 => 1
  | 5 => 2
  | _ => 4

theorem sum_map_constant {β : Type} (l : List β) (cv : Nat) :
    (l.map (fun _ => cv)).sum = l.length * cv := by
  induction l with
  | nil => simp
  | cons b t ih => simp [ih]; ring

theorem foldl_update_nodup (v : Nat → ℚ → ℚ) :
    ∀ (l : List Nat), l.Nodup → ∀ (y : Nat → ℚ) (j : Nat),
      (l.foldl (fun ys i => Function.update ys i (v i (ys i))) y) j
        = if j ∈ l then v j (y j) else y j := by
  intro l
  induction l with
  | nil => intro _ y j; simp
  | cons i t ih =>
    intro hnd y j
    rw [List.nodup_cons] at hnd
    simp only [List.foldl_cons]
    rw [ih hnd.2]
    by_cases hjt : j ∈ t
    · have hji : j ≠ i := fun h => hnd.1 (h ▸ hjt)
      simp [hjt, hji, Function.update_noteq hji]
    · by_cases hji : j = i
      · subst hji
        simp [hjt, Function.update_same]
      · simp [hjt, hji, Function.update_noteq hji]

theorem foldl_spmvRowStep (aa x : Nat → ℚ) (aj : Nat → Nat) (i : Nat) :
    ∀ (l : List Nat) (ys : Nat → ℚ),
      l.foldl (spmvRowStep aa x aj i) ys
        = Function.update ys i
            (l.foldl (fun acc j => acc + aa j * x (aj j)) (ys i)) := by
  intro l
  induction l with
  | nil => intro ys; simp [Function.update_eq_self]
  | cons j t ih =>
    intro ys
    simp only [List.foldl_cons, spmvRowStep]
    rw [ih, Function.update_same, Function.update_idem]

theorem unroll_chunks_eq (uf : Nat) :
    ∀ (q s : Nat),
      (List.range q).flatMap (fun blk => (List.range uf).map (fun r => s + blk * uf + r))
        = List.range' s (q * uf) := by
  intro q
  induction q with
  | zero => intro s; simp
  | succ q ih =>
    intro s
    rw [List.range_succ, List.flatMap_append, ih]
    simp only [List.flatMap_cons, List.flatMap_nil, List.append_nil]
    have hmap : (List.range uf).map (fun r => s + q * uf + r)
        = List.range' (s + q * uf) uf := (List.range'_eq_map_range _ _).symm
    have happ := List.range'_append s (q * uf) uf 1
    simp only [one_mul] at happ
    rw [hmap, happ, Nat.succ_mul, Nat.add_comm uf (q * uf)]

theorem unrollIndices_eq (uf s len : Nat) :
    unrollIndices uf s len = List.range' s len := by
  have hle : uf * (len / uf) ≤ len := Nat.mul_div_le len uf
  have happ := List.range'_append s (uf * (len / uf)) (len - uf * (len / uf)) 1
  simp only [one_mul] at happ
  have h2 : len - uf * (len / uf) + uf * (len / uf) = len := by omega
  unfold unrollIndices
  rw [unroll_chunks_eq, Nat.mul_comm (len / uf) uf, happ, h2]

theorem spmvUnrolled_eq (ouf iuf m : Nat) (ai aj : Nat → Nat) (aa x y : Nat → ℚ) :
    spmvUnrolled ouf iuf m ai aj aa x y = spmvBaseline m ai aj aa x y := by
  unfold spmvUnrolled spmvBaseline
  rw [unrollIndices_eq, ← List.range_eq_range']
  refine List.foldl_ext _ _ y ?_
  intro ys i _
  rw [unrollIndices_eq]

theorem spmvBaseline_apply (m : Nat) (ai aj : Nat → Nat) (aa x y : Nat → ℚ) (i : Nat) :
    spmvBaseline m ai aj aa x y i = if i < m then spmvRowVal ai aj aa x i else y i := by
  unfold spmvBaseline
  have hbody : ∀ (ys : Nat → ℚ) (r : Nat),
      (List.range' (ai r) (ai (r + 1) - ai r)).foldl (spmvRowStep aa x aj r)
          (Function.update ys r 0)
        = Function.update ys r (spmvRowVal ai aj aa x r) := by
    intro ys r
    rw [foldl_spmvRowStep, Function.update_idem, Function.update_same]
    rfl
  have hrw : (List.range m).foldl
      (fun ys i =>
        (List.range' (ai i) (ai (i + 1) - ai i)).foldl (spmvRowStep aa x aj i)
          (Function.update ys i 0)) y
      = (List.range m).foldl
        (fun ys r => Function.update ys r (spmvRowVal ai aj aa x r)) y :=
    List.foldl_ext _ _ y (fun ys r _ => hbody ys r)
  rw [hrw]
  have h2 := foldl_update_nodup (fun r _ => spmvRowVal ai aj aa x r) (List.range m)
    (List.nodup_range m) y i
  simpa [List.mem_range] using h2

theorem vecBaseline_apply (n : Int) (a : ℚ) (x : Nat → ℚ) (b : ℚ) (y : Nat → ℚ)
    (c : ℚ) (z : Nat → ℚ) (j : Nat) :
    VecAXPBYPCZ n a x b y c z j
      = if j < n.toNat then a * x j + b * y j + c * z j else y j := by
  have h1 := foldl_update_nodup (fun i cur => a * x i + b * cur + c * z i)
    (List.range n.toNat) (List.nodup_range _) y j
  simpa [VecAXPBYPCZ, List.mem_range] using h1

theorem cudaVec_flatten (tc bc : Nat) (n : Int) (a : ℚ) (x : Nat → ℚ) (b : ℚ)
    (y : Nat → ℚ) (c : ℚ) (z : Nat → ℚ) :
    (((List.range (tc * bc)).map
          (fun g => cudaThreadIndices (tc * bc) g n.toNat)).flatten).foldl
        (fun ys i => Function.update ys i (a * x i + b * ys i + c * z i)) y
      = cudaVecAXPBYPCZ tc bc n a x b y c z := by
  unfold cudaVecAXPBYPCZ
  rw [List.foldl_flatten, List.foldl_map]

theorem cudaIndices_flatten_nodup (gs n : Nat) :
    (((List.range gs).map (fun g => cudaThreadIndices gs g n)).flatten).Nodup := by
  rw [List.nodup_flatten]
  constructor
  · intro l hl
    rw [List.mem_map] at hl
    obtain ⟨g, _, rfl⟩ := hl
    exact (List.nodup_range n).filter _
  · rw [List.pairwise_map]
    refine (List.pairwise_lt_range gs).imp ?_
    intro g1 g2 hlt i hi1 hi2
    rw [cudaThreadIndices, List.mem_filter] at hi1 hi2
    have e1 : i % gs = g1 := by simpa using hi1.2
    have e2 : i % gs = g2 := by simpa using hi2.2
    omega

theorem cudaIndices_flatten_mem (gs n : Nat) (hgs : 0 < gs) (i : Nat) :
    i ∈ ((List.range gs).map (fun g => cudaThreadIndices gs g n)).flatten ↔ i < n := by
  rw [List.mem_flatten]
  constructor
  · rintro ⟨l, hl, hil⟩
    rw [List.mem_map] at hl
    obtain ⟨g, _, rfl⟩ := hl
    rw [cudaThreadIndices, List.mem_filter] at hil
    exact List.mem_range.mp hil.1
  · intro hin
    refine ⟨cudaThreadIndices gs (i % gs) n, ?_, ?_⟩
    · exact List.mem_map_of_mem _ (List.mem_range.mpr (Nat.mod_lt i hgs))
    · rw [cudaThreadIndices, List.mem_filter]
      exact ⟨List.mem_range.mpr hin, by simp⟩

theorem cudaVec_eq (tc bc : Nat) (hgrid : 0 < tc * bc) (n : Int) (a : ℚ)
    (x : Nat → ℚ) (b : ℚ) (y : Nat → ℚ) (c : ℚ) (z : Nat → ℚ) :
    cudaVecAXPBYPCZ tc bc n a x b y c z = VecAXPBYPCZ n a x b y c z := by
  funext j
  rw [vecBaseline_apply]
  rw [← cudaVec_flatten]
  have h1 := foldl_update_nodup (fun i cur => a * x i + b * cur + c * z i)
    (((List.range (tc * bc)).map
        (fun g => cudaThreadIndices (tc * bc) g n.toNat)).flatten)
    (cudaIndices_flatten_nodup (tc * bc) n.toNat) y j
  rw [h1]
  simp only [cudaIndices_flatten_mem (tc * bc) n.toNat hgrid j]

theorem selectBest_none_iff {α : Type} :
    ∀ (rs : List (EvaluationResult α)),
      selectBest rs = none ↔ ∀ r ∈ rs, r.status ≠ EStatus.success := by
  intro rs
  induction rs with
  | nil => simp [selectBest]
  | cons a rest ih =>
    simp only [selectBest]
    by_cases ha : a.status = EStatus.success
    · rw [if_pos ha]
      cases hsb : selectBest rest with
      | none =>
        simp only [List.forall_mem_cons]
        constructor
        · intro h; exact absurd h (by simp)
        · intro h; exact absurd ha h.1
      | some b2 =>
        constructor
        · intro h
          exfalso
          have h2 : (if b2.cost < a.cost then some b2 else some a) = none := h
          by_cases hlt : b2.cost < a.cost
          · rw [if_pos hlt] at h2; exact Option.noConfusion h2
          · rw [if_neg hlt] at h2; exact Option.noConfusion h2
        · intro h
          exact absurd ha (h a (List.mem_cons_self a rest))
    · rw [if_neg ha, ih]
      simp only [List.forall_mem_cons]
      constructor
      · intro h; exact ⟨ha, h⟩
      · intro h; exact h.2

theorem selectBest_spec {α : Type} :
    ∀ (rs : List (EvaluationResult α)) (b : EvaluationResult α),
      selectBest rs = some b →
        b ∈ rs ∧
        b.status = EStatus.success ∧
        (∀ r ∈ rs, r.status = EStatus.success → b.cost ≤ r.cost) ∧
        ∃ l1 l2, rs = l1 ++ b :: l2 ∧
          ∀ r ∈ l1, r.status = EStatus.success → b.cost < r.cost := by
  intro rs
  induction rs with
  | nil => intro b h; simp [selectBest] at h
  | cons a rest ih =>
    intro b h
    simp only [selectBest] at h
    by_cases ha : a.status = EStatus.success
    · rw [if_pos ha] at h
      cases hsb : selectBest rest with
      | none =>
        rw [hsb] at h
        have h2 : some a = some b := h
        have hb : a = b := Option.some.inj h2
        subst hb
        refine ⟨List.mem_cons_self a rest, ha, ?_, [], rest, rfl, by simp⟩
        intro r hr hrs
        rcases List.mem_cons.mp hr with h1 | h2
        · rw [h1]
        · exact absurd hrs ((selectBest_none_iff rest).mp hsb r h2)
      | some b2 =>
        rw [hsb] at h
        have h2 : (if b2.cost < a.cost then some b2 else some a) = some b := h
        obtain ⟨hb2mem, hb2succ, hb2min, l1, l2, hdecomp, hb2lt⟩ := ih b2 hsb
        by_cases hlt : b2.cost < a.cost
        · rw [if_pos hlt] at h2
          have hb : b2 = b := Option.some.inj h2
          subst hb
          refine ⟨List.mem_cons_of_mem a hb2mem, hb2succ, ?_, a :: l1, l2,
            by rw [hdecomp, List.cons_append], ?_⟩
          · intro r hr hrs
            rcases List.mem_cons.mp hr with h1 | h2
            · rw [h1]; exact le_of_lt hlt
            · exact hb2min r h2 hrs
          · intro r hr hrs
            rcases List.mem_cons.mp hr with h1 | h2
            · rw [h1]; exact hlt
            · exact hb2lt r h2 hrs
        · rw [if_neg hlt] at h2
          have hb : a = b := Option.some.inj h2
          subst hb
          refine ⟨List.mem_cons_self a rest, ha, ?_, [], rest, rfl, by simp⟩
          intro r hr hrs
          rcases List.mem_cons.mp hr with h1 | h2
          · rw [h1]
          · exact le_trans (not_lt.mp hlt) (hb2min r h2 hrs)
    · rw [if_neg ha] at h
      obtain ⟨hbmem, hbs, hbmin, l1, l2, hdecomp, hblt⟩ := ih b h
      refine ⟨List.mem_cons_of_mem a hbmem, hbs, ?_, a :: l1, l2,
        by rw [hdecomp, List.cons_append], ?_⟩
      · intro r hr hrs
        rcases List.mem_cons.mp hr with h1 | h2
        · rw [h1] at hrs; exact absurd hrs ha
        · exact hbmin r h2 hrs
      · intro r hr hrs
        rcases List.mem_cons.mp hr with h1 | h2
        · rw [h1] at hrs; exact absurd hrs ha
        · exact hblt r h2 hrs

theorem selectBest_exhaustive_none_iff {α : Type} (space : List α)
    (eval : α → ℚ × EStatus) :
    selectBest (exhaustiveRun space eval) = none
      ↔ ∀ a ∈ space, (eval a).2 ≠ EStatus.success := by
  rw [selectBest_none_iff]
  unfold exhaustiveRun
  constructor
  · intro h a ha
    exact h _ (List.mem_map_of_mem _ ha)
  · intro h r hr
    rw [List.mem_map] at hr
    obtain ⟨a, ha, rfl⟩ := hr
    exact h a ha

theorem expand_length {α : Type} :
    ∀ (ps : List (String × List α)), (expand ps).length = sizesProd ps := by
  intro ps
  induction ps with
  | nil => rfl
  | cons p ps ih =>
    obtain ⟨nm, dom⟩ := p
    simp only [expand, sizesProd, List.map_cons, List.prod_cons]
    rw [List.length_flatMap]
    have hconst : (List.map (List.length ∘ fun v =>
        (expand ps).map (fun asn => (nm, v) :: asn)) dom)
        = dom.map (fun _ => (expand ps).length) :=
      List.map_congr_left (fun v _ => by simp)
    rw [hconst, sum_map_constant, ih]
    rfl

theorem expand_names {α : Type} :
    ∀ (ps : List (String × List α)), ∀ asn ∈ expand ps,
      asn.map Prod.fst = ps.map Prod.fst := by
  intro ps
  induction ps with
  | nil =>
    intro asn h
    simp only [expand, List.mem_singleton] at h
    subst h
    rfl
  | cons p ps ih =>
    obtain ⟨nm, dom⟩ := p
    intro asn h
    simp only [expand, List.mem_flatMap, List.mem_map] at h
    obtain ⟨v, hv, asn2, hasn2, rfl⟩ := h
    simp [ih asn2 hasn2]

theorem flatMap_uniform_getElem {β γ : Type} [Inhabited β] :
    ∀ (l : List β) (f : β → List γ) (w k : Nat), (∀ b ∈ l, (f b).length = w) →
      k < l.length * w →
      (l.flatMap f)[k]? = (f (l.getD (k / w) default))[k % w]? := by
  intro l
  induction l with
  | nil =>
    intro f w k _ hk
    simp at hk
  | cons hd t ih =>
    intro f w k hw hk
    have hw0 : 0 < w := by
      rcases Nat.eq_zero_or_pos w with h0 | hpos
      · subst h0; simp at hk
      · exact hpos
    have hfx : (f hd).length = w := hw hd (List.mem_cons_self hd t)
    rw [List.flatMap_cons, List.getElem?_append]
    by_cases hkw : k < w
    · rw [if_pos (by rw [hfx]; exact hkw)]
      rw [Nat.div_eq_of_lt hkw, Nat.mod_eq_of_lt hkw]
      simp
    · obtain ⟨kk, rfl⟩ : ∃ kk, k = kk + w := ⟨k - w, by omega⟩
      rw [if_neg (by rw [hfx]; omega)]
      rw [hfx]
      have hkk : kk < t.length * w := by
        have hlen : (hd :: t).length * w = t.length * w + w := by
          simp [Nat.succ_mul]
        omega
      have hsub : kk + w - w = kk := by omega
      rw [hsub]
      rw [ih f w kk (fun b hb => hw b (List.mem_cons_of_mem hd hb)) hkk]
      rw [Nat.add_div_right _ hw0, Nat.add_mod_right]
      simp [List.getD_cons_succ]

theorem expand_getElem {α : Type} [Inhabited α] :
    ∀ (ps : List (String × List α)) (k : Nat), k < sizesProd ps →
      (expand ps)[k]? = some (assignmentAt ps k) := by
  intro ps
  induction ps with
  | nil =>
    intro k hk
    have hk0 : k = 0 := by simpa [sizesProd] using hk
    subst hk0
    rfl
  | cons p ps ih =>
    obtain ⟨nm, dom⟩ := p
    intro k hk
    have hsz : sizesProd ((nm, dom) :: ps) = dom.length * sizesProd ps := by
      simp [sizesProd]
    rw [hsz] at hk
    have hbounds : ∀ v ∈ dom,
        ((expand ps).map (fun asn => (nm, v) :: asn)).length = sizesProd ps := by
      intro v _
      rw [List.length_map, expand_length]
    have hw0 : 0 < sizesProd ps := by
      rcases Nat.eq_zero_or_pos (sizesProd ps) with h0 | hpos
      · rw [h0, Nat.mul_zero] at hk; omega
      · exact hpos
    have hdef : expand ((nm, dom) :: ps)
        = dom.flatMap (fun v => (expand ps).map (fun asn => (nm, v) :: asn)) := rfl
    rw [hdef, flatMap_uniform_getElem dom _ (sizesProd ps) k hbounds hk,
      List.getElem?_map, ih (k % sizesProd ps) (Nat.mod_lt _ hw0)]
    simp [assignmentAt]

theorem rangeDom_getElem (start stop step k : Nat)
    (hk : k < (rangeDom start stop step).length) :
    (rangeDom start stop step)[k]? = some (start + k * step) := by
  unfold rangeDom at hk ⊢
  rw [List.length_map, List.length_range] at hk
  rw [List.getElem?_map, List.getElem?_range hk]
  rfl

theorem sizesProd_pos {α : Type} :
    ∀ (ps : List (String × List α)), ps.any (fun p => p.2.isEmpty) = false →
      0 < sizesProd ps := by
  intro ps
  induction ps with
  | nil => intro _; simp [sizesProd]
  | cons p t ih =>
    intro h
    simp only [List.any_cons, Bool.or_eq_false_iff] at h
    have hp : 0 < p.2.length := by
      cases hnl : p.2 with
      | nil => rw [hnl] at h; simp at h
      | cons _ _ => simp [hnl]
    have hsz : sizesProd (p :: t) = p.2.length * sizesProd t := by
      simp [sizesProd]
    rw [hsz]
    exact Nat.mul_pos hp (ih h.2)

theorem matMultStep_congr (nrows : Nat) (offsets : Nat → Int) (A : Nat → ℚ)
    (x x2 : Int → ℚ)
    (hx : ∀ col : Int, 0 ≤ col → col < (nrows : Int) → x col = x2 col)
    (i : Nat) (ys : Nat → ℚ) (j : Nat) :
    matMultStep nrows offsets A x i ys j = matMultStep nrows offsets A x2 i ys j := by
  unfold matMultStep
  by_cases hcol : 0 ≤ (i : Int) + offsets j ∧ (i : Int) + offsets j < (nrows : Int)
  · rw [if_pos hcol, if_pos hcol, hx _ hcol.1 hcol.2]
  · rw [if_neg hcol, if_neg hcol]

theorem matMultSeqSG_congr (nrows ndiags : Nat) (offsets : Nat → Int) (A : Nat → ℚ)
    (x x2 : Int → ℚ) (y : Nat → ℚ)
    (hx : ∀ col : Int, 0 ≤ col → col < (nrows : Int) → x col = x2 col) :
    matMultSeqSG nrows ndiags offsets A x y = matMultSeqSG nrows ndiags offsets A x2 y := by
  unfold matMultSeqSG
  refine List.foldl_ext _ _ y ?_
  intro ys i _
  refine List.foldl_ext _ _ ys ?_
  intro ys2 j _
  exact matMultStep_congr nrows offsets A x x2 hx i ys2 j

theorem matMultXReads_bound (nrows ndiags : Nat) (offsets : Nat → Int) :
    ∀ colv ∈ matMultXReads nrows ndiags offsets, 0 ≤ colv ∧ colv < (nrows : Int) := by
  intro colv hm
  unfold matMultXReads at hm
  rw [List.mem_flatMap] at hm
  obtain ⟨i, _, hm2⟩ := hm
  rw [List.mem_filterMap] at hm2
  obtain ⟨j, _, hj⟩ := hm2
  by_cases hcol : 0 ≤ (i : Int) + offsets j ∧ (i : Int) + offsets j < (nrows : Int)
  · rw [if_pos hcol] at hj
    cases hj
    exact hcol
  · rw [if_neg hcol] at hj
    cases hj

theorem vecState_noop (n : Int) (hn : n ≤ 0) (a b c : ℚ)
    (s : (Nat → ℚ) × (Nat → ℚ) × (Nat → ℚ)) :
    vecAXPBYPCZState n a b c s = s := by
  unfold vecAXPBYPCZState
  rw [Int.toNat_of_nonpos hn]
  rfl

theorem vecBaseline_noop (n : Int) (hn : n ≤ 0) (a : ℚ) (x : Nat → ℚ) (b : ℚ)
    (y : Nat → ℚ) (c : ℚ) (z : Nat → ℚ) :
    VecAXPBYPCZ n a x b y c z = y := by
  unfold VecAXPBYPCZ
  rw [Int.toNat_of_nonpos hn]
  rfl

/-- C1: every generated CodeVariant — CUDA, SpMV-unroll, or generic kind —
executed on the same input data computes exactly the baseline loop's output
(exact equality over ℚ, the order-faithful stand-in for "numerically equivalent
within floating-point rounding"); in particular, for the VecAXPBYPCZ fixture
the generated kernel and the baseline loop compute the same y. -/
theorem C1_codeVariant_equiv_baseline :
    (∀ (tc bc : Nat), 0 < tc * bc → ∀ (n : Int) (a : ℚ) (x : Nat → ℚ) (b : ℚ)
        (y : Nat → ℚ) (c : ℚ) (z : Nat → ℚ),
        cudaVecAXPBYPCZ tc bc n a x b y c z = VecAXPBYPCZ n a x b y c z)
    ∧ (∀ (ouf iuf m : Nat) (ai aj : Nat → Nat) (aa x y : Nat → ℚ),
        spmvUnrolled ouf iuf m ai aj aa x y = spmvBaseline m ai aj aa x y)
    ∧ (∀ (n : Int) (a : ℚ) (x : Nat → ℚ) (b : ℚ) (y : Nat → ℚ) (c : ℚ) (z : Nat → ℚ),
        genericVecVariant n a x b y c z = VecAXPBYPCZ n a x b y c z) := by
  refine ⟨?_, ?_, ?_⟩
  · intro tc bc h n a x b y c z
    exact cudaVec_eq tc bc h n a x b y c z
  · intro ouf iuf m ai aj aa x y
    exact spmvUnrolled_eq ouf iuf m ai aj aa x y
  · intro n a x b y c z
    rfl

/-- Witness for C1: the VecAXPBYPCZ fixture's CUDA geometry (threadCount 32,
blockCount 14) on a concrete input of 5 elements. -/
theorem C1_witness :
    cudaVecAXPBYPCZ 32 14 5 2 (fun i => (i : ℚ)) 3 (fun i => (i : ℚ) + 1) 4
        (fun i => (i : ℚ) - 2)
      = VecAXPBYPCZ 5 2 (fun i => (i : ℚ)) 3 (fun i => (i : ℚ) + 1) 4
        (fun i => (i : ℚ) - 2) :=
  C1_codeVariant_equiv_baseline.1 32 14 (by decide) 5 2 (fun i => (i : ℚ)) 3
    (fun i => (i : ℚ) + 1) 4 (fun i => (i : ℚ) - 2)

/-- C2: for every PerfTuning parameter block, the Expander produces exactly the
product of the domain sizes many ParameterAssignments, and each assignment
binds exactly one value to every declared parameter (its bound names are the
declared names, in declaration order). -/
theorem C2_expander_product_count (ps : List (String × List PValue)) :
    (expand ps).length = sizesProd ps
    ∧ ∀ asn ∈ expand ps, asn.map Prod.fst = ps.map Prod.fst :=
  ⟨expand_length ps, expand_names ps⟩

/-- Witness for C2: the MatMult_SeqSG fixture block; its first assignment binds
exactly TC, BC, UIF, PL, CFLAGS. -/
theorem C2_witness :
    (expand matVecPerfParams).length = sizesProd matVecPerfParams
    ∧ ([("TC", PValue.num 32), ("BC", PValue.num 14), ("UIF", PValue.num 1),
        ("PL", PValue.num 16), ("CFLAGS", PValue.str " ")] : List (String × PValue)).map
          Prod.fst
        = matVecPerfParams.map Prod.fst :=
  ⟨(C2_expander_product_count matVecPerfParams).1,
   (C2_expander_product_count matVecPerfParams).2 _ (by decide)⟩

/-- C3 counterexample: expanding the MatMult_SeqSG fixture's
performance_params yields 64 ParameterAssignments, not 32 — the claim's factor
for BC is wrong, since BC = range(14,29,14) enumerates the two values 14 and
28, so the product is 2×2×2×2×4 = 64. -/
theorem C3_counterexample :
    (expand matVecPerfParams).length = 64
    ∧ (expand matVecPerfParams).length ≠ 32 := by
  constructor
  · decide
  · decide

/-- C3 (amended): expanding the MatMult_SeqSG fixture's performance_params
yields exactly 64 ParameterAssignments, computed as 2×2×2×2×4, and an
exhaustive run over this fixture produces exactly 64 EvaluationResults with a
single minimal-cost winner (whenever the evaluations succeed). -/
theorem C3_matMult_space_64 :
    (expand matVecPerfParams).length = 2 * 2 * 2 * 2 * 4
    ∧ (∀ eval : List (String × PValue) → ℚ × EStatus,
        (exhaustiveRun (expand matVecPerfParams) eval).length = 64)
    ∧ (∀ eval : List (String × PValue) → ℚ × EStatus,
        (∀ asn ∈ expand matVecPerfParams, (eval asn).2 = EStatus.success) →
        ∃ best, selectBest (exhaustiveRun (expand matVecPerfParams) eval) = some best
          ∧ best.status = EStatus.success
          ∧ ∀ r ∈ exhaustiveRun (expand matVecPerfParams) eval,
              r.status = EStatus.success → best.cost ≤ r.cost) := by
  refine ⟨by decide, ?_, ?_⟩
  · intro eval
    unfold exhaustiveRun
    rw [List.length_map, expand_length]
    decide
  · intro eval hall
    cases hsb : selectBest (exhaustiveRun (expand matVecPerfParams) eval) with
    | none =>
      exfalso
      have h2 := (selectBest_exhaustive_none_iff _ eval).mp hsb
      have hne : expand matVecPerfParams ≠ [] := by
        intro h0
        have hlen := expand_length matVecPerfParams
        rw [h0] at hlen
        have h64 : sizesProd matVecPerfParams = 64 := by decide
        rw [h64] at hlen
        exact absurd hlen.symm (by decide)
      obtain ⟨asn, hasn⟩ := List.exists_mem_of_ne_nil _ hne
      exact h2 asn hasn (hall asn hasn)
    | some best =>
      obtain ⟨_, hsucc, hmin, _⟩ := selectBest_spec _ best hsb
      exact ⟨best, rfl, hsucc, hmin⟩

/-- Witness for C3: an all-success evaluation over the fixture space has a
selected winner of minimal cost. -/
theorem C3_witness :
    ∃ best, selectBest (exhaustiveRun (expand matVecPerfParams)
          (fun _ => (1, EStatus.success))) = some best
      ∧ best.status = EStatus.success
      ∧ ∀ r ∈ exhaustiveRun (expand matVecPerfParams) (fun _ => (1, EStatus.success)),
          r.status = EStatus.success → best.cost ≤ r.cost :=
  C3_matMult_space_64.2.2 (fun _ => (1, EStatus.success)) (fun _ _ => rfl)

/-- C4: for an SpMV variant whose row count is not an exact multiple of the
outer unroll factor, the unrolled-plus-residual row sequence still visits every
row index in [0, num_rows) exactly once (count 1, and count 0 outside), the
variant computes exactly what the baseline computes, and each visited row i
gets y[i] built from init_val 0 by accumulating aa[j]*x[aj[j]] over
[ai[i], ai[i+1]). -/
theorem C4_residual_loop_correct (ouf iuf m : Nat) (ai aj : Nat → Nat)
    (aa x y : Nat → ℚ) (hm : m % ouf ≠ 0) :
    (∀ i, (unrollIndices ouf 0 m).count i = if i < m then 1 else 0)
    ∧ spmvUnrolled ouf iuf m ai aj aa x y = spmvBaseline m ai aj aa x y
    ∧ ∀ i, i < m → spmvUnrolled ouf iuf m ai aj aa x y i = spmvRowVal ai aj aa x i := by
  refine ⟨?_, spmvUnrolled_eq ouf iuf m ai aj aa x y, ?_⟩
  · intro i
    rw [unrollIndices_eq, ← List.range_eq_range']
    by_cases hi : i < m
    · rw [if_pos hi]
      exact List.count_eq_one_of_mem (List.nodup_range m) (List.mem_range.mpr hi)
    · rw [if_neg hi]
      rw [List.count_eq_zero, List.mem_range]
      omega
  · intro i hi
    rw [spmvUnrolled_eq, spmvBaseline_apply, if_pos hi]

/-- Witness for C4: the fixture's out_unroll_factor 3 on a 5-row matrix
(5 is not a multiple of 3, so the residual loop covers rows 3 and 4). -/
theorem C4_witness :
    spmvUnrolled 3 3 5 (fun r => [0, 2, 2, 5, 6, 9].getD r 0)
        (fun j => [0, 1, 2, 0, 1, 3, 4, 2, 1].getD j 0)
        (fun j => (j : ℚ) + 1) (fun k => (k : ℚ)) (fun _ => 55)
      = spmvBaseline 5 (fun r => [0, 2, 2, 5, 6, 9].getD r 0)
        (fun j => [0, 1, 2, 0, 1, 3, 4, 2, 1].getD j 0)
        (fun j => (j : ℚ) + 1) (fun k => (k : ℚ)) (fun _ => 55) :=
  (C4_residual_loop_correct 3 3 5 (fun r => [0, 2, 2, 5, 6, 9].getD r 0)
      (fun j => [0, 1, 2, 0, 1, 3, 4, 2, 1].getD j 0)
      (fun j => (j : ℚ) + 1) (fun k => (k : ℚ)) (fun _ => 55) (by decide)).2.1

/-- C5: a selected result is a Success-status member of the result list whose
cost is minimal among all Success results, and it is the earliest evaluated
among equal-cost Success results: every result listed before it that succeeded
has strictly larger cost. -/
theorem C5_selection_minimal_earliest {α : Type} (rs : List (EvaluationResult α))
    (bestR : EvaluationResult α) (h : selectBest rs = some bestR) :
    bestR ∈ rs ∧ bestR.status = EStatus.success
    ∧ (∀ r ∈ rs, r.status = EStatus.success → bestR.cost ≤ r.cost)
    ∧ ∃ l1 l2, rs = l1 ++ bestR :: l2 ∧
        ∀ r ∈ l1, r.status = EStatus.success → bestR.cost < r.cost :=
  selectBest_spec rs bestR h

/-- Witness for C5: on a concrete result list the selection picks the earliest
of the two cost-2 successes. -/
theorem C5_witness :
    (⟨3, 2, EStatus.success⟩ : EvaluationResult Nat).status = EStatus.success :=
  (C5_selection_minimal_earliest
      [⟨1, 3, EStatus.success⟩, ⟨2, 1, EStatus.buildFailure⟩,
        ⟨3, 2, EStatus.success⟩, ⟨4, 2, EStatus.success⟩]
      ⟨3, 2, EStatus.success⟩ (by decide)).2.1

/-- C6: on every fatal failure (MalformedAnnotation, EmptyDomain, or
NoViableVariant) the tuning run leaves the source text unchanged; with a
well-formed parse and no empty domain, NoViableVariant arises exactly when no
evaluation succeeds, and any Success evaluation (per-variant failures
notwithstanding) yields a winning rewrite rather than an abort. -/
theorem C6_fatal_leaves_source (source : String) (spanStart spanLen : Nat)
    (parsed : Option (List (String × List PValue)))
    (eval : List (String × PValue) → ℚ × EStatus)
    (gen : List (String × PValue) → String) :
    (∀ e, (tune source spanStart spanLen parsed eval gen).2 = Sum.inl e →
        (tune source spanStart spanLen parsed eval gen).1 = source)
    ∧ (∀ ps, parsed = some ps → ps.any (fun p => p.2.isEmpty) = false →
        (((tune source spanStart spanLen parsed eval gen).2
            = Sum.inl FatalError.noViableVariant)
          ↔ ∀ asn ∈ expand ps, (eval asn).2 ≠ EStatus.success))
    ∧ (∀ ps, parsed = some ps → ps.any (fun p => p.2.isEmpty) = false →
        (∃ asn ∈ expand ps, (eval asn).2 = EStatus.success) →
        ∃ best, (tune source spanStart spanLen parsed eval gen).2 = Sum.inr best) := by
  cases parsed with
  | none =>
    refine ⟨fun e _ => rfl, ?_, ?_⟩
    · intro ps hps
      exact absurd hps (by simp)
    · intro ps hps
      exact absurd hps (by simp)
  | some ps0 =>
    by_cases hany : ps0.any (fun p => p.2.isEmpty) = true
    · have htune : tune source spanStart spanLen (some ps0) eval gen
          = (source, Sum.inl FatalError.emptyDomain) := by
        simp only [tune]
        rw [if_pos hany]
      refine ⟨fun e _ => by rw [htune], ?_, ?_⟩
      · intro ps hps hfalse
        have : ps = ps0 := (Option.some.inj hps).symm
        subst this
        exact absurd hany (by rw [hfalse]; simp)
      · intro ps hps hfalse
        have : ps = ps0 := (Option.some.inj hps).symm
        subst this
        exact absurd hany (by rw [hfalse]; simp)
    · have hany2 : ¬ ps0.any (fun p => p.2.isEmpty) = true := hany
      cases hsb : selectBest (exhaustiveRun (expand ps0) eval) with
      | none =>
        have htune : tune source spanStart spanLen (some ps0) eval gen
            = (source, Sum.inl FatalError.noViableVariant) := by
          simp only [tune]
          rw [if_neg hany2, hsb]
        refine ⟨fun e _ => by rw [htune], ?_, ?_⟩
        · intro ps hps _
          have : ps = ps0 := (Option.some.inj hps).symm
          subst this
          rw [htune]
          exact ⟨fun _ => (selectBest_exhaustive_none_iff _ eval).mp hsb, fun _ => rfl⟩
        · intro ps hps _ hex
          have : ps = ps0 := (Option.some.inj hps).symm
          subst this
          exfalso
          obtain ⟨asn, hasn, hsucc⟩ := hex
          exact (selectBest_exhaustive_none_iff _ eval).mp hsb asn hasn hsucc
      | some best =>
        have htune : tune source spanStart spanLen (some ps0) eval gen
            = (rewriteSource source spanStart spanLen (gen best.variant),
               Sum.inr best) := by
          simp only [tune]
          rw [if_neg hany2, hsb]
        refine ⟨?_, ?_, ?_⟩
        · intro e he
          rw [htune] at he
          exact absurd he (by simp)
        · intro ps hps _
          have : ps = ps0 := (Option.some.inj hps).symm
          subst this
          rw [htune]
          constructor
          · intro hcontr
            exact absurd hcontr (by simp)
          · intro hallfail
            exfalso
            have hnone : selectBest (exhaustiveRun (expand ps) eval) = none :=
              (selectBest_exhaustive_none_iff _ eval).mpr hallfail
            rw [hsb] at hnone
            exact Option.noConfusion hnone
        · intro ps hps _ _
          exact ⟨best, by rw [htune]⟩

/-- Witness for C6: a run whose single variant fails to build aborts with
NoViableVariant and leaves the source text untouched. -/
theorem C6_witness :
    (tune "void f();" 3 2 (some [("P", [PValue.num 1])])
        (fun _ => (1, EStatus.buildFailure)) (fun _ => "variant")).1 = "void f();" :=
  (C6_fatal_leaves_source "void f();" 3 2 (some [("P", [PValue.num 1])])
      (fun _ => (1, EStatus.buildFailure)) (fun _ => "variant")).1
    FatalError.noViableVariant (by decide)

/-- C7: the Expander's enumeration is deterministic and fully determined by the
declarations: position k of the expanded sequence is the mixed-radix decoding
of k — parameters in declaration order with later-declared parameters varying
fastest (nested left-to-right product expansion) — and a range domain
enumerates start, start+step, ... ascending. -/
theorem C7_expander_deterministic_order :
    (∀ (ps : List (String × List PValue)) (k : Nat), k < sizesProd ps →
        (expand ps)[k]? = some (assignmentAt ps k))
    ∧ (∀ start stop step k : Nat, k < (rangeDom start stop step).length →
        (rangeDom start stop step)[k]? = some (start + k * step)) :=
  ⟨fun ps k hk => expand_getElem ps k hk,
   fun start stop step k hk => rangeDom_getElem start stop step k hk⟩

/-- Witness for C7: position 37 of the fixture space is its mixed-radix
decoding, and the TC range's second element is 32 + 32. -/
theorem C7_witness :
    (expand matVecPerfParams)[37]? = some (assignmentAt matVecPerfParams 37)
    ∧ (rangeDom 32 65 32)[1]? = some (32 + 1 * 32) :=
  ⟨C7_expander_deterministic_order.1 matVecPerfParams 37 (by decide),
   C7_expander_deterministic_order.2 32 65 32 1 (by decide)⟩

/-- C8: in the MatMult_SeqSG baseline, x is read only at guarded indices
col = i + offsets[j] with 0 ≤ col < nrows: every recorded x-read is in bounds,
and the computation is unchanged by modifying x outside [0, nrows), for any
(possibly negative) offsets. -/
theorem C8_x_reads_in_bounds (nrows ndiags : Nat) (offsets : Nat → Int)
    (A : Nat → ℚ) (x x2 : Int → ℚ) (y : Nat → ℚ)
    (hx : ∀ col : Int, 0 ≤ col → col < (nrows : Int) → x col = x2 col) :
    (∀ colv ∈ matMultXReads nrows ndiags offsets, 0 ≤ colv ∧ colv < (nrows : Int))
    ∧ matMultSeqSG nrows ndiags offsets A x y = matMultSeqSG nrows ndiags offsets A x2 y :=
  ⟨matMultXReads_bound nrows ndiags offsets,
   matMultSeqSG_congr nrows ndiags offsets A x x2 y hx⟩

/-- Witness for C8: the fixture geometry (nrows = 8, ndiags = 7, the fixture's
offsets): two x vectors agreeing on [0, 8) but different outside give the same
output. -/
theorem C8_witness :
    matMultSeqSG 8 7 fixtureOffsets (fun k => (k : ℚ))
        (fun col => if 0 ≤ col ∧ col < 8 then (col : ℚ) else 99) (fun _ => 0)
      = matMultSeqSG 8 7 fixtureOffsets (fun k => (k : ℚ))
        (fun col => if 0 ≤ col ∧ col < 8 then (col : ℚ) else 55) (fun _ => 0) :=
  (C8_x_reads_in_bounds 8 7 fixtureOffsets (fun k => (k : ℚ))
      (fun col => if 0 ≤ col ∧ col < 8 then (col : ℚ) else 99)
      (fun col => if 0 ≤ col ∧ col < 8 then (col : ℚ) else 55) (fun _ => 0)
      (fun col h1 h2 => by
        have h2i : col < (8 : Int) := by exact_mod_cast h2
        show (if 0 ≤ col ∧ col < 8 then (col : ℚ) else 99)
            = (if 0 ≤ col ∧ col < 8 then (col : ℚ) else 55)
        rw [if_pos ⟨h1, h2i⟩, if_pos ⟨h1, h2i⟩])).2

/-- C9: every row i in [0, m) of the SpMV baseline assigns y[i] = 0 before
accumulating, so the result at row i is the from-zero accumulation
spmvRowVal — and a row with an empty index range (ai[i+1] = ai[i]) yields 0
rather than the previous contents of y[i]. -/
theorem C9_row_zero_init (m : Nat) (ai aj : Nat → Nat) (aa x y : Nat → ℚ)
    (i : Nat) (hi : i < m) :
    spmvBaseline m ai aj aa x y i = spmvRowVal ai aj aa x i
    ∧ (ai (i + 1) = ai i → spmvBaseline m ai aj aa x y i = 0) := by
  constructor
  · rw [spmvBaseline_apply, if_pos hi]
  · intro hempty
    rw [spmvBaseline_apply, if_pos hi]
    unfold spmvRowVal
    rw [hempty]
    simp

/-- Witness for C9: a 3-row matrix whose row 1 is empty, with previous
y contents 100 everywhere, yields y[1] = 0. -/
theorem C9_witness :
    spmvBaseline 3 (fun r => [0, 2, 2, 5].getD r 0) (fun j => [0, 1, 2, 0, 1].getD j 0)
        (fun j => (j : ℚ) + 1) (fun k => (k : ℚ)) (fun _ => 100) 1 = 0 :=
  (C9_row_zero_init 3 (fun r => [0, 2, 2, 5].getD r 0) (fun j => [0, 1, 2, 0, 1].getD j 0)
      (fun j => (j : ℚ) + 1) (fun k => (k : ℚ)) (fun _ => 100) 1 (by decide)).2 (by decide)

/-- C10: calling VecAXPBYPCZ with n ≤ 0 executes the loop body zero times: the
whole (x, y, z) state is left unchanged, and in particular the output y equals
the input y. -/
theorem C10_nonpositive_n_noop (n : Int) (hn : n ≤ 0) (a b c : ℚ)
    (x y z : Nat → ℚ) :
    vecAXPBYPCZState n a b c (x, y, z) = (x, y, z)
    ∧ VecAXPBYPCZ n a x b y c z = y :=
  ⟨vecState_noop n hn a b c (x, y, z), vecBaseline_noop n hn a x b y c z⟩

/-- Witness for C10: n = -7 on concrete arrays leaves y unchanged. -/
theorem C10_witness :
    VecAXPBYPCZ (-7) 2 (fun i => (i : ℚ)) 3 (fun i => (i : ℚ) + 1) 4
        (fun i => (i : ℚ) - 2)
      = (fun i : Nat => (i : ℚ) + 1) :=
  (C10_nonpositive_n_noop (-7) (by decide) 2 3 4 (fun i => (i : ℚ))
      (fun i => (i : ℚ) + 1) (fun i => (i : ℚ) - 2)).2

end OrioSpec
